import Mathlib

/-!
Verification development for the expression-lowering core of a Rust front end
(`gcc/rust/backend/rust-compile-expr.cc`).  The C++ source is shallowly
embedded: backend `tree` values become an inductive `Tree`, compiled types
become `Ty`, adjustment lists are applied by a Lean transcription of
`HIRCompileBase::resolve_adjustements`, and the tuple-match decomposition
(`organize_tuple_patterns` / `simplify_tuple_match`) is transcribed over an
embedding of the HIR fragment it manipulates.
-/

namespace GccRs

/-- Compiled backend types.  `slice` stands for any type with `SLICE_TYPE_P`
set (the fat-pointer/slice representation); `other` is an opaque tag for
types the lowered fragments never inspect. -/
inductive Ty where
  | slice
  | unit
  | refTy (t : Ty)
  | ptrTy (t : Ty)
  | arrayTy (elem : Ty) (len : Nat)
  | fnTy (id : Nat)
  | other (tag : Nat)
deriving DecidableEq, Repr

/-- Backend IR values (GCC `tree`s) produced by the lowering routines.
Each constructor records the type the corresponding GCC builder gives the
node (`TREE_TYPE`); where the C++ type is computed by machinery outside the
excerpt an opaque `Ty.other` tag is carried instead. -/
inductive Tree where
  | errorMark
  | leaf (ty : Ty) (tag : Nat)
  | addressOf (ty : Ty) (e : Tree)
  | indirect (ty : Ty) (e : Tree) (knownValid : Bool)
  | callExpr (ty : Ty) (fn : Tree) (args : List Tree)
  | structField (ty : Ty) (e : Tree) (idx : Nat)
  | arrayRef (ty : Ty) (base : Tree) (idx : Tree)
  | objTypeRef (ty : Ty) (vtableAccess : Tree) (receiver : Tree) (idx : Nat)
  | intCst (ty : Ty) (v : Int)
  | constructorE (ty : Ty) (fields : List Tree)
  | varExpr (ty : Ty) (id : Nat)
  | unitExpr
deriving Repr

/-- `TREE_TYPE` of an embedded backend value.  `error_mark_node` and the unit
expression have fixed types of their own. -/
def Tree.ty : Tree → Ty
  | .errorMark => .other 0
  | .leaf t _ => t
  | .addressOf t _ => t
  | .indirect t _ _ => t
  | .callExpr t _ _ => t
  | .structField t _ _ => t
  | .arrayRef t _ _ => t
  | .objTypeRef t _ _ _ => t
  | .intCst t _ => t
  | .constructorE t _ => t
  | .varExpr t _ => t
  | .unitExpr => .unit

/-! ## Literal materializer (`CompileExpr::compile_integer_literal`) -/

/-- `CompileExpr::compile_integer_literal` (rust-compile-expr.cc:1196-1226).
The literal string is parsed by `mpz_init_set_str`; a parse failure
(`parsed = none`) reports "bad number in literal" and yields
`error_mark_node`.  Otherwise the arbitrary-precision value is compared with
the bounds obtained from `get_type_static_bounds`; `ival < type_min` or
`ival > type_max` reports the `LiteralOverflow` diagnostic and yields
`error_mark_node`; in range, `double_int_to_tree` builds the constant of the
resolved type. -/
def compile_integer_literal (ty : Ty) (parsed : Option Int)
    (type_min type_max : Int) : Tree :=
  match parsed with
  | none => .errorMark
  | some ival =>
    if ival < type_min ∨ type_max < ival then .errorMark
    else .intCst ty ival

/-- Modelled from the spec: `get_type_static_bounds` is outside the excerpt;
per §4.1 the bounds of an integer type are determined by bit-width and
signedness: a signed `bits`-bit type spans `[-2^(bits-1), 2^(bits-1)-1]`, an
unsigned one `[0, 2^bits - 1]`. -/
def typeMinOf (signed : Bool) (bits : Nat) : Int :=
  if signed then -(2 ^ (bits - 1)) else 0

/-- Modelled from the spec: upper bound of an integer type, see `typeMinOf`. -/
def typeMaxOf (signed : Bool) (bits : Nat) : Int :=
  if signed then 2 ^ (bits - 1) - 1 else 2 ^ bits - 1

/-! ## Coercion/adjustment engine (`HIRCompileBase::resolve_adjustements`) -/

/-- `Resolver::Adjustment::AdjustmentType` as dispatched on in
`resolve_adjustements`. -/
inductive AdjustmentType where
  | error
  | immRef
  | mutRef
  | deref
  | derefMut
  | indirection
  | unsize
deriving DecidableEq, Repr

/-- One adjustment.  `expected` is the compiled
`TyTyResolveCompile::compile (ctx, adjustment.get_expected ())` type.
`derefFnAddr` models the compiled overload function address
(`CompileInherentImplItem::Compile`, external to the excerpt), `derefCallTy`
the `TREE_TYPE` of the resulting call, and `derefKind` the stored
`get_deref_adjustment_type ()` value. -/
structure Adjustment where
  type : AdjustmentType
  expected : Ty
  derefFnAddr : Tree
  derefCallTy : Ty
  derefKind : AdjustmentType
deriving Repr

/-- `HIRCompileBase::resolve_deref_adjustment` (rust-compile-expr.cc:1623-1657):
borrow the argument (`address_expression` at `build_reference_type` of its
type) when `get_deref_adjustment_type () != ERROR`, then call the compiled
overload function on it. -/
def resolve_deref_adjustment (a : Adjustment) (e : Tree) : Tree :=
  let adjusted := if a.derefKind ≠ .error
    then .addressOf (.refTy e.ty) e
    else e
  .callExpr a.derefCallTy a.derefFnAddr [adjusted]

/-- `HIRCompileBase::resolve_indirection_adjustment`
(rust-compile-expr.cc:1659-1669): a direct indirection at the expected type,
marked known-valid. -/
def resolve_indirection_adjustment (a : Adjustment) (e : Tree) : Tree :=
  .indirect a.expected e true

/-- `HIRCompileBase::resolve_unsized_adjustment`
(rust-compile-expr.cc:1671-1703): asserts the value is an array, takes its
address, reads the element count from the array domain, and builds the
`(data, length)` fat-pointer aggregate.  The `rust_assert` abort on a
non-array value is modelled as `error_mark_node`. -/
def resolve_unsized_adjustment (a : Adjustment) (e : Tree) : Tree :=
  match e.ty with
  | .arrayTy _ len =>
    let data := Tree.addressOf (.refTy e.ty) e
    let size := Tree.intCst (.other 1) (Int.ofNat len)
    .constructorE a.expected [data, size]
  | _ => .errorMark

/-- One non-`ERROR` step of the adjustment loop body in
`HIRCompileBase::resolve_adjustements` (rust-compile-expr.cc:1580-1621).
`IMM_REF`/`MUT_REF` take the address at the expected pointer type unless the
value already has a slice type (`SLICE_TYPE_P`), in which case the value is
left untouched. -/
def applyAdjustment (a : Adjustment) (e : Tree) : Tree :=
  match a.type with
  | .error => .errorMark
  | .immRef => if e.ty = .slice then e else .addressOf a.expected e
  | .mutRef => if e.ty = .slice then e else .addressOf a.expected e
  | .deref => resolve_deref_adjustment a e
  | .derefMut => resolve_deref_adjustment a e
  | .indirection => resolve_indirection_adjustment a e
  | .unsize => resolve_unsized_adjustment a e

/-- `HIRCompileBase::resolve_adjustements` (rust-compile-expr.cc:1580-1621):
fold the adjustment list left-to-right over the value; an `ERROR` adjustment
returns `error_mark_node` from inside the loop at once. -/
def resolve_adjustements : List Adjustment → Tree → Tree
  | [], e => e
  | a :: rest, e =>
    match a.type with
    | .error => .errorMark
    | _ => resolve_adjustements rest (applyAdjustment a e)

theorem resolve_adjustements_cons_ne_error (a : Adjustment) (rest : List Adjustment)
    (e : Tree) (h : a.type ≠ .error) :
    resolve_adjustements (a :: rest) e = resolve_adjustements rest (applyAdjustment a e) := by
  cases ha : a.type <;> simp [resolve_adjustements, ha] at h ⊢

theorem resolve_adjustements_append (adjs more : List Adjustment) (v : Tree)
    (hne : ∀ x ∈ adjs, x.type ≠ AdjustmentType.error) :
    resolve_adjustements (adjs ++ more) v
      = resolve_adjustements more (resolve_adjustements adjs v) := by
  induction adjs generalizing v with
  | nil => simp [resolve_adjustements]
  | cons a rest ih =>
    have ha : a.type ≠ .error := hne a (List.mem_cons_self a rest)
    rw [List.cons_append, resolve_adjustements_cons_ne_error a (rest ++ more) v ha,
      resolve_adjustements_cons_ne_error a rest v ha]
    exact ih (applyAdjustment a v) (fun x hx => hne x (List.mem_cons_of_mem a hx))

theorem resolve_adjustements_error_mem (l : List Adjustment) (e : Tree)
    (adj : Adjustment) (hmem : adj ∈ l) (hadj : adj.type = AdjustmentType.error) :
    resolve_adjustements l e = Tree.errorMark := by
  induction l generalizing e with
  | nil => cases hmem
  | cons a rest ih =>
    by_cases ha : a.type = AdjustmentType.error
    · simp [resolve_adjustements, ha]
    · rcases List.mem_cons.mp hmem with h | h
      · subst h; exact absurd hadj ha
      · rw [resolve_adjustements_cons_ne_error a rest e ha]
        exact ih (applyAdjustment a e) h

/-- C9: an adjustment of the distinguished `ERROR` type makes
`resolve_adjustements` return `error_mark_node` immediately: the result is the
error value and is independent of every adjustment that follows the `ERROR`
entry, so no later conversion of the value takes place. -/
theorem adjustment_error_early_exit (pre post : List Adjustment) (e : Tree)
    (exp : Ty) (dfn : Tree) (dct : Ty) (dk : AdjustmentType) :
    resolve_adjustements
        (pre ++ (⟨AdjustmentType.error, exp, dfn, dct, dk⟩ : Adjustment) :: post) e
      = Tree.errorMark
    ∧ ∀ post2 : List Adjustment,
        resolve_adjustements
            (pre ++ (⟨AdjustmentType.error, exp, dfn, dct, dk⟩ : Adjustment) :: post2) e
          = resolve_adjustements
              (pre ++ (⟨AdjustmentType.error, exp, dfn, dct, dk⟩ : Adjustment) :: post) e := by
  have key : ∀ post1 : List Adjustment,
      resolve_adjustements
          (pre ++ (⟨AdjustmentType.error, exp, dfn, dct, dk⟩ : Adjustment) :: post1) e
        = Tree.errorMark := by
    intro post1
    exact resolve_adjustements_error_mem _ e ⟨AdjustmentType.error, exp, dfn, dct, dk⟩
      (List.mem_append_right pre (List.mem_cons_self _ post1)) rfl
  exact ⟨key post, fun post2 => (key post2).trans (key post).symm⟩

/-- C4: the adjustment engine is strictly left-to-right, and a Borrow
(`IMM_REF`/`MUT_REF`) adjustment is the identity on a value whose type is
already the slice/fat-pointer representation (no address is taken), while on
a non-slice value it takes the address at the adjustment's expected pointer
type; in particular `apply([Borrow], slice_value) = slice_value`. -/
theorem adjustment_borrow_slice_noop (a : Adjustment) (e : Tree)
    (h : a.type = AdjustmentType.immRef ∨ a.type = AdjustmentType.mutRef) :
    (resolve_adjustements [a] e
        = if Tree.ty e = Ty.slice then e else Tree.addressOf a.expected e)
    ∧ (Tree.ty e = Ty.slice → resolve_adjustements [a] e = e)
    ∧ (∀ adjs more : List Adjustment, ∀ v : Tree,
        (∀ x ∈ adjs, x.type ≠ AdjustmentType.error) →
        resolve_adjustements (adjs ++ more) v
          = resolve_adjustements more (resolve_adjustements adjs v)) := by
  have step : resolve_adjustements [a] e
      = if Tree.ty e = Ty.slice then e else Tree.addressOf a.expected e := by
    rcases h with h | h <;> simp [resolve_adjustements, applyAdjustment, h]
  refine ⟨step, fun hs => ?_, fun adjs more v hne =>
    resolve_adjustements_append adjs more v hne⟩
  rw [step, if_pos hs]

/-- Example values used by the adjustment-engine witnesses: a slice-typed
backend value, a Borrow adjustment, and an Indirection adjustment. -/
def sliceLeaf : Tree := .leaf .slice 0

def borrowAdj : Adjustment := ⟨.immRef, .ptrTy .slice, .errorMark, .other 0, .deref⟩

def indirAdj : Adjustment := ⟨.indirection, .other 2, .errorMark, .other 0, .deref⟩

/-- C4 witness: borrowing an already-slice-typed value is the identity, and
applying a two-element adjustment list equals applying the tail to the result
of the head. -/
theorem adjustment_borrow_slice_noop_witness :
    resolve_adjustements [borrowAdj] sliceLeaf = sliceLeaf
    ∧ resolve_adjustements ([indirAdj] ++ [borrowAdj]) sliceLeaf
        = resolve_adjustements [borrowAdj] (resolve_adjustements [indirAdj] sliceLeaf) := by
  have h := adjustment_borrow_slice_noop borrowAdj sliceLeaf (Or.inl rfl)
  refine ⟨h.2.1 rfl, h.2.2 [indirAdj] [borrowAdj] sliceLeaf ?_⟩
  intro x hx
  rw [List.mem_singleton.mp hx]
  intro hc
  cases hc

/-- C3: integer-literal materialization succeeds with a constant of the
resolved type iff `type_min ≤ value ≤ type_max`; the boundary values succeed,
and out-of-range values yield the distinguished `error_mark_node` (the
`LiteralOverflow` diagnostic path). -/
theorem integer_literal_bounds (ty : Ty) (ival type_min type_max : Int) :
    (compile_integer_literal ty (some ival) type_min type_max ≠ Tree.errorMark
      ↔ type_min ≤ ival ∧ ival ≤ type_max)
    ∧ (type_min ≤ ival → ival ≤ type_max →
        compile_integer_literal ty (some ival) type_min type_max = Tree.intCst ty ival)
    ∧ (ival < type_min ∨ type_max < ival →
        compile_integer_literal ty (some ival) type_min type_max = Tree.errorMark) := by
  by_cases h : ival < type_min ∨ type_max < ival
  · refine ⟨?_, fun h1 h2 => ?_, fun _ => ?_⟩
    · simp only [compile_integer_literal, if_pos h, ne_eq, not_true_eq_false, false_iff]
      intro hb
      omega
    · exfalso; omega
    · simp only [compile_integer_literal, if_pos h]
  · refine ⟨?_, fun _ _ => ?_, fun hc => absurd hc h⟩
    · simp only [compile_integer_literal, if_neg h, ne_eq]
      constructor
      · intro _; omega
      · intro _ heq; exact Tree.noConfusion heq
    · simp only [compile_integer_literal, if_neg h]

/-- C3 witness: for the signed 8-bit bounds, the value exactly at `type_min`
materializes as the constant, and `type_max + 1` yields the error value. -/
theorem integer_literal_bounds_witness :
    compile_integer_literal (Ty.other 0) (some (typeMinOf true 8))
        (typeMinOf true 8) (typeMaxOf true 8)
      = Tree.intCst (Ty.other 0) (typeMinOf true 8)
    ∧ compile_integer_literal (Ty.other 0) (some (typeMaxOf true 8 + 1))
        (typeMinOf true 8) (typeMaxOf true 8)
      = Tree.errorMark := by
  constructor
  · exact (integer_literal_bounds (Ty.other 0) (typeMinOf true 8) (typeMinOf true 8)
      (typeMaxOf true 8)).2.1 (by decide) (by decide)
  · exact (integer_literal_bounds (Ty.other 0) (typeMaxOf true 8 + 1) (typeMinOf true 8)
      (typeMaxOf true 8)).2.2 (Or.inr (by decide))

/-! ## Dynamic dispatch (`CompileExpr::get_fn_addr_from_dyn` /
`get_receiver_from_dyn`) -/

/-- One item of a dynamic object's ordered item list: the excerpt asserts the
item's type is `FNDEF` and only consumes `ft->get_id ()`. -/
structure DynItem where
  fnTyId : Nat
deriving DecidableEq, Repr

/-- The linear scan of `CompileExpr::get_fn_addr_from_dyn`
(rust-compile-expr.cc:949-964): walk the object items incrementing `offs`,
stopping at the first item whose function-type id equals the resolved
method's; `none` models the `ref == nullptr` fall-through. -/
def dynScan : List DynItem → Nat → Nat → Option Nat
  | [], _, _ => none
  | it :: rest, fnid, offs =>
    if it.fnTyId = fnid then some offs else dynScan rest fnid (offs + 1)

/-- The indirection block shared by `get_fn_addr_from_dyn` (lines 969-982) and
`get_receiver_from_dyn` (lines 1008-1022): when the receiver's type is a
reference, first emit a known-valid indirection down to its base type. -/
def applyDynIndirection (receiverTy : Ty) (receiverRef : Tree) : Tree :=
  match receiverTy with
  | .refTy base => .indirect base receiverRef true
  | _ => receiverRef

/-- `CompileExpr::get_fn_addr_from_dyn` (rust-compile-expr.cc:943-1000): scan
the object items for the method's function-type id; absence yields
`error_mark_node`; otherwise read the vtable pointer from struct field 1 of
the (possibly indirected) receiver, index it by the offset, and build the
`OBJ_TYPE_REF` virtual call address. -/
def get_fn_addr_from_dyn (items : List DynItem) (receiverTy : Ty) (fnTyId : Nat)
    (expectedFnTy : Ty) (receiverRef : Tree) : Tree :=
  match dynScan items fnTyId 0 with
  | none => .errorMark
  | some offs =>
    let rcv := applyDynIndirection receiverTy receiverRef
    let vtablePtr := Tree.structField (.other 2) rcv 1
    let access := Tree.arrayRef (.other 3) vtablePtr (.intCst (.other 1) (Int.ofNat offs))
    .objTypeRef expectedFnTy access rcv offs

/-- `CompileExpr::get_receiver_from_dyn` (rust-compile-expr.cc:1002-1027):
after the same possible indirection, the data passed as receiver is struct
field 0. -/
def get_receiver_from_dyn (receiverTy : Ty) (receiverRef : Tree) : Tree :=
  .structField (.other 4) (applyDynIndirection receiverTy receiverRef) 0

theorem dynScan_eq_findIdx (items : List DynItem) (fnid k : Nat) :
    dynScan items fnid k = items.findIdx? (fun it => it.fnTyId == fnid) k := by
  induction items generalizing k with
  | nil => rfl
  | cons it rest ih =>
    by_cases h : it.fnTyId = fnid
    · simp [dynScan, h]
    · simp [dynScan, h, ih]

/-- C7: for a dynamic call, the vtable slot offset is the zero-based position
of the first object item whose function-type id equals the resolved method's
(linear scan, first match wins); no match yields the error value; the vtable
pointer is struct field 1 and the receiver data struct field 0 of the
receiver, which is first indirected when the receiver type is a reference. -/
theorem dyn_dispatch_offset (items : List DynItem) (receiverTy : Ty)
    (fnTyId : Nat) (expectedFnTy : Ty) (receiverRef : Tree) :
    (∀ i : Nat, items.findIdx? (fun it => it.fnTyId == fnTyId) = some i →
      get_fn_addr_from_dyn items receiverTy fnTyId expectedFnTy receiverRef
        = Tree.objTypeRef expectedFnTy
            (Tree.arrayRef (Ty.other 3)
              (Tree.structField (Ty.other 2) (applyDynIndirection receiverTy receiverRef) 1)
              (Tree.intCst (Ty.other 1) (Int.ofNat i)))
            (applyDynIndirection receiverTy receiverRef) i)
    ∧ (items.findIdx? (fun it => it.fnTyId == fnTyId) = none →
        get_fn_addr_from_dyn items receiverTy fnTyId expectedFnTy receiverRef
          = Tree.errorMark)
    ∧ (get_receiver_from_dyn receiverTy receiverRef
        = Tree.structField (Ty.other 4) (applyDynIndirection receiverTy receiverRef) 0)
    ∧ (∀ base : Ty, receiverTy = Ty.refTy base →
        applyDynIndirection receiverTy receiverRef = Tree.indirect base receiverRef true) := by
  have hscan := dynScan_eq_findIdx items fnTyId 0
  refine ⟨fun i hi => ?_, fun hn => ?_, rfl, fun base hb => ?_⟩
  · simp only [get_fn_addr_from_dyn, hscan, hi]
  · simp only [get_fn_addr_from_dyn, hscan, hn]
  · subst hb; rfl

/-- C7 witness: in an item list with ids `[5, 7, 7]` looking up id `7`, the
first match wins (offset 1), and a reference-typed receiver is indirected
before the vtable read. -/
theorem dyn_dispatch_offset_witness :
    get_fn_addr_from_dyn [⟨5⟩, ⟨7⟩, ⟨7⟩] (Ty.refTy (Ty.other 9)) 7 (Ty.fnTy 7)
        (Tree.leaf (Ty.refTy (Ty.other 9)) 3)
      = Tree.objTypeRef (Ty.fnTy 7)
          (Tree.arrayRef (Ty.other 3)
            (Tree.structField (Ty.other 2)
              (Tree.indirect (Ty.other 9) (Tree.leaf (Ty.refTy (Ty.other 9)) 3) true) 1)
            (Tree.intCst (Ty.other 1) (Int.ofNat 1)))
          (Tree.indirect (Ty.other 9) (Tree.leaf (Ty.refTy (Ty.other 9)) 3) true) 1 := by
  have h := dyn_dispatch_offset [⟨5⟩, ⟨7⟩, ⟨7⟩] (Ty.refTy (Ty.other 9)) 7 (Ty.fnTy 7)
    (Tree.leaf (Ty.refTy (Ty.other 9)) 3)
  rw [h.1 1 (by decide)]
  rw [h.2.2.2 (Ty.other 9) rfl]

/-! ## Dereference lowering (`CompileExpr::visit (HIR::DereferenceExpr &)`) -/

/-- `CompileExpr::visit (HIR::DereferenceExpr &)` (rust-compile-expr.cc:145-186)
after the type lookup succeeded: the compiled operand is replaced by the
operator-overload call result when a `DEREF` overload is recorded; then, when
both the value's type and the expected (resolved result) type are slice
types, the value passes through unchanged, else a known-valid indirection at
the expected type is emitted. -/
def compileDereferenceExpr (expectedTy : Ty) (operand : Tree)
    (overloadCall : Option Tree) : Tree :=
  let mainExpr := match overloadCall with
    | some c => c
    | none => operand
  if Tree.ty mainExpr = Ty.slice ∧ expectedTy = Ty.slice then mainExpr
  else .indirect expectedTy mainExpr true

/-- C10: dereference lowering returns the operand value unchanged exactly when
both the value and the resolved result type are slices — in the plain case and
after an overload deref call — and otherwise emits a known-valid indirection
at the expected type. -/
theorem deref_slice_passthrough (expectedTy : Ty) (operand : Tree) :
    (Tree.ty operand = Ty.slice → expectedTy = Ty.slice →
      compileDereferenceExpr expectedTy operand none = operand)
    ∧ (∀ callRes : Tree, Tree.ty callRes = Ty.slice → expectedTy = Ty.slice →
        compileDereferenceExpr expectedTy operand (some callRes) = callRes)
    ∧ (¬ (Tree.ty operand = Ty.slice ∧ expectedTy = Ty.slice) →
        compileDereferenceExpr expectedTy operand none
          = Tree.indirect expectedTy operand true)
    ∧ (∀ callRes : Tree, ¬ (Tree.ty callRes = Ty.slice ∧ expectedTy = Ty.slice) →
        compileDereferenceExpr expectedTy operand (some callRes)
          = Tree.indirect expectedTy callRes true) := by
  refine ⟨fun h1 h2 => ?_, fun c h1 h2 => ?_, fun hn => ?_, fun c hn => ?_⟩
  · simp [compileDereferenceExpr, h1, h2]
  · simp [compileDereferenceExpr, h1, h2]
  · simp only [compileDereferenceExpr, if_neg hn]
  · simp only [compileDereferenceExpr, if_neg hn]

/-- C10 witness: a slice-typed operand dereferenced at a slice result type
passes through unchanged (plain and overload cases), and a non-slice operand
gets the known-valid indirection. -/
theorem deref_slice_passthrough_witness :
    compileDereferenceExpr Ty.slice (Tree.leaf Ty.slice 1) none = Tree.leaf Ty.slice 1
    ∧ compileDereferenceExpr Ty.slice (Tree.leaf (Ty.other 0) 2)
        (some (Tree.callExpr Ty.slice (Tree.leaf (Ty.fnTy 0) 0) []))
      = Tree.callExpr Ty.slice (Tree.leaf (Ty.fnTy 0) 0) []
    ∧ compileDereferenceExpr (Ty.other 1) (Tree.leaf (Ty.other 0) 2) none
      = Tree.indirect (Ty.other 1) (Tree.leaf (Ty.other 0) 2) true := by
  refine ⟨?_, ?_, ?_⟩
  · exact (deref_slice_passthrough Ty.slice (Tree.leaf Ty.slice 1)).1 rfl rfl
  · exact (deref_slice_passthrough Ty.slice (Tree.leaf (Ty.other 0) 2)).2.1
      (Tree.callExpr Ty.slice (Tree.leaf (Ty.fnTy 0) 0) []) rfl rfl
  · exact (deref_slice_passthrough (Ty.other 1) (Tree.leaf (Ty.other 0) 2)).2.2.1
      (by intro hc; exact absurd hc.2 (by decide))

/-! ## Direct match lowering (`CompileExpr::visit (HIR::MatchExpr &)`,
rust-compile-expr.cc:410-652, non-tuple path) -/

/-- Per-arm compiled content for direct match lowering: the number of
alternative patterns in the arm (each contributes one case-label statement)
and the compiled arm result expression. -/
structure MatchCaseLowered where
  patCount : Nat
  bodyTree : Tree
deriving Repr

/-- Statements appended to the context block by the match visitor: the
temporary declaration (`ret_var_stmt`), the per-pattern case-label statement,
the per-arm assignment into the temporary, the unconditional goto to the
single shared end label, the switch statement wrapping the case body, and the
end-label definition statement. -/
inductive Stmt where
  | tempDecl (v : Nat)
  | caseLabel (caseIdx patIdx : Nat)
  | assignStmt (target value : Tree)
  | gotoEnd
  | switchStmt (cond : Tree) (body : List Stmt)
  | endLabelDef
deriving Repr

/-- Statements contributed by one match case (rust-compile-expr.cc:595-637):
one case-label statement per alternative pattern of the arm, the assignment
of the compiled arm result into the temporary when one exists, and the
unconditional jump to the shared end label. -/
def caseSegment (tmp : Option (Ty × Nat)) (i : Nat) (c : MatchCaseLowered) : List Stmt :=
  ((List.range c.patCount).map (fun j => Stmt.caseLabel i j))
    ++ (match tmp with
        | some (ty, v) => [Stmt.assignStmt (Tree.varExpr ty v) c.bodyTree]
        | none => [])
    ++ [Stmt.gotoEnd]

/-- The `for (auto &kase : expr.get_match_cases ())` loop of the match
visitor, emitting each case's segment in source order. -/
def lowerMatchCasesLoop (tmp : Option (Ty × Nat)) : Nat → List MatchCaseLowered → List Stmt
  | _, [] => []
  | i, c :: rest => caseSegment tmp i c ++ lowerMatchCasesLoop tmp (i + 1) rest

/-- Direct (non-tuple) lowering of a match expression
(rust-compile-expr.cc:473-652): a temporary is allocated iff the match's
resolved result type is not the unit type (`needs_temp = !expr_tyty->is_unit`,
lines 483-495); the per-case loop fills the switch body; the switch statement
over the (already compiled) scrutinee qualifier and the end-label definition
are appended after it; `translated` is set to the temporary's var expression
only when a temporary exists (lines 648-651) and otherwise keeps its previous
contents `t0`. -/
def lowerDirectMatch (exprTy : Ty) (scrutQual : Tree) (cases : List MatchCaseLowered)
    (tmpId : Nat) (t0 : Option Tree) : List Stmt × Option Tree :=
  let tmp : Option (Ty × Nat) := if exprTy = Ty.unit then none else some (exprTy, tmpId)
  let pre : List Stmt := match tmp with
    | some (_, v) => [Stmt.tempDecl v]
    | none => []
  let body := lowerMatchCasesLoop tmp 0 cases
  let stmts := pre ++ [Stmt.switchStmt scrutQual body, Stmt.endLabelDef]
  let value : Option Tree := match tmp with
    | some (ty, v) => some (Tree.varExpr ty v)
    | none => t0
  (stmts, value)

theorem lowerMatchCasesLoop_eq_join (tmp : Option (Ty × Nat)) (i : Nat)
    (cases : List MatchCaseLowered) :
    lowerMatchCasesLoop tmp i cases
      = (((List.range' i cases.length).zip cases).map
          (fun p => caseSegment tmp p.1 p.2)).flatten := by
  induction cases generalizing i with
  | nil => rfl
  | cons c rest ih =>
    simp only [lowerMatchCasesLoop, List.length_cons, List.range'_succ, List.zip_cons_cons,
      List.map_cons, List.flatten_cons, ih (i + 1)]

/-- C8 (amended): direct match lowering allocates the temporary iff the
result type is not unit; the switch body is exactly the concatenation, in
source order, of each case's case-labels, the assignment into the temporary
(present iff one was allocated), and the jump to the shared end label; the
overall value is the temporary's var expression when one was allocated, and
is otherwise left at its previous contents (the visitor writes nothing). -/
theorem direct_match_lowering (exprTy : Ty) (scrutQual : Tree)
    (cases : List MatchCaseLowered) (tmpId : Nat) (t0 : Option Tree) :
    (Stmt.tempDecl tmpId ∈ (lowerDirectMatch exprTy scrutQual cases tmpId t0).1
      ↔ exprTy ≠ Ty.unit)
    ∧ (lowerDirectMatch exprTy scrutQual cases tmpId t0).1
        = (if exprTy = Ty.unit then [] else [Stmt.tempDecl tmpId])
          ++ [Stmt.switchStmt scrutQual
                ((((List.range' 0 cases.length).zip cases).map
                  (fun p => caseSegment
                    (if exprTy = Ty.unit then none else some (exprTy, tmpId)) p.1 p.2)).flatten),
              Stmt.endLabelDef]
    ∧ (lowerDirectMatch exprTy scrutQual cases tmpId t0).2
        = (if exprTy = Ty.unit then t0 else some (Tree.varExpr exprTy tmpId)) := by
  by_cases hu : exprTy = Ty.unit
  · refine ⟨?_, ?_, ?_⟩
    · simp [lowerDirectMatch, hu]
    · simp only [lowerDirectMatch, hu, if_pos, if_true, lowerMatchCasesLoop_eq_join,
        List.nil_append]
    · simp [lowerDirectMatch, hu]
  · refine ⟨?_, ?_, ?_⟩
    · simp [lowerDirectMatch, hu]
    · simp only [lowerDirectMatch, hu, if_false, if_neg hu, lowerMatchCasesLoop_eq_join,
        List.cons_append, List.nil_append]
    · simp [lowerDirectMatch, hu]

/-- C8 witness: for a non-unit result type the temporary declaration is
emitted and the overall value is the temporary's var expression. -/
theorem direct_match_lowering_witness :
    Stmt.tempDecl 4 ∈ (lowerDirectMatch (Ty.other 0) (Tree.leaf (Ty.other 0) 1)
        [⟨1, Tree.intCst (Ty.other 0) 10⟩] 4 none).1
    ∧ (lowerDirectMatch (Ty.other 0) (Tree.leaf (Ty.other 0) 1)
        [⟨1, Tree.intCst (Ty.other 0) 10⟩] 4 none).2
      = some (Tree.varExpr (Ty.other 0) 4) := by
  have h := direct_match_lowering (Ty.other 0) (Tree.leaf (Ty.other 0) 1)
    [⟨1, Tree.intCst (Ty.other 0) 10⟩] 4 none
  refine ⟨h.1.mpr (by decide), ?_⟩
  rw [h.2.2]
  rfl

/-- C8 counterexample: for a unit-typed match no temporary is allocated and
the visitor leaves the result value untouched — here the previously stored
`error_mark_node` — instead of producing the unit value the claim requires. -/
theorem direct_match_unit_value_counterexample :
    (lowerDirectMatch Ty.unit (Tree.leaf (Ty.other 0) 0) [⟨1, Tree.unitExpr⟩] 0
        (some Tree.errorMark)).2
      = some Tree.errorMark
    ∧ some Tree.errorMark ≠ some Tree.unitExpr := by
  exact ⟨rfl, fun h => Tree.noConfusion (Option.some.inj h)⟩

/-! ## Tuple-match decomposition (`organize_tuple_patterns` /
`simplify_tuple_match`, rust-compile-expr.cc:189-408)

The HIR fragment these functions manipulate: patterns (wildcard, literal,
tuple with `MULTIPLE` or `RANGED` items) and expressions (literal, tuple,
match, opaque arm bodies).  A match arm is its list of alternative
(OR-separated) patterns; a match case pairs an arm with its result
expression. -/

/-- HIR patterns.  `tupleMultiple ps` is `HIR::TuplePattern` whose items are
`TuplePatternItemsMultiple ps`; `tupleRanged` is a tuple pattern with
`RANGED` items (the `/* FIXME I dunno lol */` branch); `litP` covers the
non-tuple, non-wildcard leaf patterns used in tuple positions. -/
inductive HPattern where
  | wildcard
  | litP (n : Int)
  | tupleMultiple (ps : List HPattern)
  | tupleRanged
deriving Repr

/-- HIR expressions restricted to what the decomposition touches: literals,
tuple expressions, match expressions and opaque arm bodies.  A match case is
a pair of the arm's alternative-pattern list and the result expression. -/
inductive HExpr where
  | lit (n : Int)
  | tupleE (elems : List HExpr)
  | matchE (scrut : HExpr) (cases : List (List HPattern × HExpr))
  | other (tag : Nat)
deriving Repr

/-- A match case: the arm's alternative patterns paired with the arm's
result expression. -/
abbrev MatchCase := List HPattern × HExpr

/-- Failure modes of the transcribed decomposition: `assertFail` models a
`rust_assert` abort (or undefined behaviour from indexing an empty pattern
vector), `noFuel` marks recursion-budget exhaustion of the fuelled
transcription. -/
inductive LowerErr where
  | assertFail
  | noFuel
deriving DecidableEq, Repr

/-- The re-wrapping of the remaining sub-patterns in `organize_tuple_patterns`
(rust-compile-expr.cc:242-257): when exactly one pattern remains it is used
bare, otherwise a `TuplePattern` with `MULTIPLE` items is built around the
rest. -/
def restPattern : List HPattern → HPattern
  | [p] => p
  | ps => .tupleMultiple ps

/-- One iteration of the `for (auto &match_case : expr.get_match_cases ())`
loop of `organize_tuple_patterns` (rust-compile-expr.cc:203-290), acting on
the map accumulated so far.  Only `case_arm.get_patterns ()[0]` is examined
(an empty pattern vector would be undefined behaviour, modelled as
`assertFail`); a wildcard is skipped (`continue`); a non-tuple pattern trips
`rust_assert (pat->get_pattern_type () == ... TUPLE)`; `RANGED` items fall
into the empty `FIXME` branch and contribute nothing.  For `MULTIPLE` items
the first sub-pattern is popped and the rest re-wrapped into the new case.
The C++ map is `std::map` keyed by `std::unique_ptr<HIR::Pattern>`: its
default comparator orders keys by raw pointer address, and `first` is always
a freshly cloned allocation, so `map.find (first)` never finds an existing
key and every case inserts a fresh singleton entry.  The map is modelled as
an entry list; iteration order (pointer order of the heap allocations) is
modelled as allocation order, i.e. insertion order. -/
def organizeStep (m : List (HPattern × List MatchCase)) (c : MatchCase) :
    Except LowerErr (List (HPattern × List MatchCase)) :=
  match c.1 with
  | [] => .error .assertFail
  | pat :: _ =>
    match pat with
    | .wildcard => .ok m
    | .tupleMultiple ps =>
      match ps with
      | [] => .error .assertFail
      | first :: rest =>
        .ok (m ++ [(first, [([restPattern rest], c.2)])])
    | .tupleRanged => .ok m
    | .litP _ => .error .assertFail

/-- `organize_tuple_patterns` (rust-compile-expr.cc:193-293): fold the loop
body over the match cases, starting from the empty map.  (The function also
asserts that the enclosing match's scrutinee is a tuple expression; its only
caller `simplify_tuple_match` establishes that before calling.) -/
def organize_tuple_patterns (cases : List MatchCase) :
    Except LowerErr (List (HPattern × List MatchCase)) :=
  cases.foldlM organizeStep []

/-- The scrutinee of the recursive match built by `simplify_tuple_match`
(rust-compile-expr.cc:322-335): after the head is popped from the tuple
elements, a single remaining element is used directly and a longer tail is
re-wrapped as a tuple expression. -/
def tupleMatchRemaining : List HExpr → HExpr
  | [x] => x
  | l => .tupleE l

/-- Tuple arity of an expression (number of elements of a tuple expression). -/
def tupleArity : HExpr → Nat
  | .tupleE l => l.length
  | _ => 0

/-- The `for (auto iter = map.begin (); ...)` loop of `simplify_tuple_match`
(rust-compile-expr.cc:347-386), parameterized by the recursive simplification
`s` of an inner match over the remaining scrutinee: one outer case per map
entry, in map order, whose arm is the entry's key pattern and whose body is
the simplified inner match over the entry's cases. -/
def simplifyGroupsWith (s : List MatchCase → Except LowerErr HExpr) :
    List (HPattern × List MatchCase) → Except LowerErr (List MatchCase)
  | [] => .ok []
  | (key, kcases) :: rest =>
    match s kcases with
    | .error e => .error e
    | .ok inner =>
      match simplifyGroupsWith s rest with
      | .error e => .error e
      | .ok cs => .ok (([key], inner) :: cs)

/-- `simplify_tuple_match` (rust-compile-expr.cc:296-408), fuelled.  A
non-tuple scrutinee returns the match unchanged (lines 299-300).  For a tuple
scrutinee, `rust_assert (tail.size () > 1)` requires at least two elements;
the head is split off, the remaining elements give the inner scrutinee
(`tupleMatchRemaining`), the cases are grouped by `organize_tuple_patterns`,
and for each map entry an inner match over the remaining scrutinee is built
and recursively simplified; the outer match over the head carries one case
per entry. -/
def simplifyFuel : Nat → HExpr → List MatchCase → Except LowerErr HExpr
  | 0, _, _ => .error .noFuel
  | fuel + 1, scrut, cases =>
    match scrut with
    | .tupleE elems =>
      match elems with
      | [] => .error .assertFail
      | [_] => .error .assertFail
      | head :: tail =>
        match organize_tuple_patterns cases with
        | .error e => .error e
        | .ok map =>
          match simplifyGroupsWith
              (fun kc => simplifyFuel fuel (tupleMatchRemaining tail) kc) map with
          | .error e => .error e
          | .ok outerCases => .ok (.matchE head outerCases)
    | _ => .ok (.matchE scrut cases)

/-! ### Reference semantics (spec side of the refinement claim)

The reference table-driven matcher follows the spec's words (§8): evaluate
the scrutinee to a value, then select the first case, in source order, one of
whose arm's alternative patterns structurally matches the value. -/

/-- Runtime values of the evaluated scrutinee: integers and tuples. -/
inductive Value where
  | intV (n : Int)
  | tupleV (vs : List Value)
deriving Repr

mutual

/-- Evaluate a scrutinee expression to a value (literals and tuples only). -/
def evalVal : HExpr → Option Value
  | .lit n => some (.intV n)
  | .tupleE es =>
    match evalVals es with
    | some vs => some (.tupleV vs)
    | none => none
  | _ => none

/-- Evaluate a list of scrutinee expressions. -/
def evalVals : List HExpr → Option (List Value)
  | [] => some []
  | e :: es =>
    match evalVal e, evalVals es with
    | some v, some vs => some (v :: vs)
    | _, _ => none

end

mutual

/-- Structural pattern matching of the reference matcher: wildcards match
everything, literal patterns match equal integers, tuple patterns match
tuples of the same length element-wise; `RANGED` tuple items never match
(they are unimplemented in the code under study). -/
def patMatches : HPattern → Value → Bool
  | .wildcard, _ => true
  | .litP n, .intV m => n == m
  | .litP _, _ => false
  | .tupleMultiple ps, .tupleV vs => patListMatches ps vs
  | .tupleMultiple _, _ => false
  | .tupleRanged, _ => false

/-- Element-wise matching of a tuple pattern's items. -/
def patListMatches : List HPattern → List Value → Bool
  | [], [] => true
  | p :: ps, v :: vs => patMatches p v && patListMatches ps vs
  | _, _ => false

end

/-- An arm matches when any of its alternative (OR) patterns matches. -/
def armMatches (arm : List HPattern) (v : Value) : Bool :=
  arm.any (fun p => patMatches p v)

/-- Reference table-driven matcher: the first case, in source order, whose
arm matches the value; returns that case's result expression. -/
def refMatch : List MatchCase → Value → Option HExpr
  | [], _ => none
  | (arm, body) :: rest, v =>
    if armMatches arm v then some body else refMatch rest v

/-- Evaluate a (possibly nested) match form down to the selected non-match
result expression, using first-match semantics at every level. -/
def evalSelect : Nat → HExpr → Option HExpr
  | 0, _ => none
  | fuel + 1, e =>
    match e with
    | .matchE scrut cases =>
      match evalVal scrut with
      | none => none
      | some v =>
        match refMatch cases v with
        | none => none
        | some body => evalSelect fuel body
    | _ => some e

/-! ### Concrete inputs used by the tuple-match theorems -/

/-- The cases of `match (1, 3) { (1, 2) => 10, (1, 3) => 20, _ => 30 }`:
the two non-wildcard cases have structurally equal first tuple elements. -/
def egCases : List MatchCase :=
  [([.tupleMultiple [.litP 1, .litP 2]], .lit 10),
   ([.tupleMultiple [.litP 1, .litP 3]], .lit 20),
   ([.wildcard], .lit 30)]

/-- The tuple scrutinee expression `(1, 3)`. -/
def egScrut : HExpr := .tupleE [.lit 1, .lit 3]

/-- A 2-tuple scrutinee whose second element is itself a 3-tuple:
`(0, (1, 2, 3))`. -/
def egNestedScrut : HExpr := .tupleE [.lit 0, .tupleE [.lit 1, .lit 2, .lit 3]]

/-- The single case `(0, (1, 2, 3)) => e` for the nested-tuple scrutinee. -/
def egNestedCases : List MatchCase :=
  [([.tupleMultiple [.litP 0, .tupleMultiple [.litP 1, .litP 2, .litP 3]]], .other 7)]

/-! ### C1 / C2: the pointer-keyed map does not group structurally equal
first elements -/

/-- C1: on the cases of `match (1,3) { (1,2) => 10, (1,3) => 20, _ => 30 }`,
whose two non-wildcard first tuple elements are the structurally equal
pattern `1`, `organize_tuple_patterns` yields two distinct singleton map
entries with structurally equal keys instead of one entry holding both cases:
the `std::map` is keyed by `unique_ptr` pointer identity, so `map.find` on a
fresh clone never matches an existing key. -/
theorem organize_no_structural_grouping :
    organize_tuple_patterns egCases
      = .ok [(.litP 1, [([.litP 2], .lit 10)]),
             (.litP 1, [([.litP 3], .lit 20)])] := by
  rfl

/-- C2: for scrutinee value `(1, 3)` of
`match (1,3) { (1,2) => 10, (1,3) => 20, _ => 30 }` the reference
table-driven matcher selects `20`, while first-match evaluation of the
nested form produced by `simplify_tuple_match` selects no case at all: the
two outer cases carry the same pattern `1`, evaluation commits to the first
(whose inner match only knows the second-element pattern `2`) and fails, and
the wildcard arm was dropped entirely. -/
theorem simplify_tuple_match_not_semantics_preserving :
    evalVal egScrut = some (.tupleV [.intV 1, .intV 3])
    ∧ refMatch egCases (.tupleV [.intV 1, .intV 3]) = some (.lit 20)
    ∧ simplifyFuel 10 egScrut egCases
        = .ok (.matchE (.lit 1)
            [([.litP 1], .matchE (.lit 3) [([.litP 2], .lit 10)]),
             ([.litP 1], .matchE (.lit 3) [([.litP 3], .lit 20)])])
    ∧ evalSelect 10 (.matchE (.lit 1)
            [([.litP 1], .matchE (.lit 3) [([.litP 2], .lit 10)]),
             ([.litP 1], .matchE (.lit 3) [([.litP 3], .lit 20)])]) = none := by
  exact ⟨rfl, rfl, rfl, rfl⟩

/-! ### C5: only the first alternative pattern counts; wildcards are
skipped -/

theorem organize_fold_wildcard_skip (restAlts : List HPattern) (body : HExpr)
    (post : List MatchCase) :
    ∀ (pre : List MatchCase) (init : List (HPattern × List MatchCase)),
      List.foldlM organizeStep init (pre ++ (HPattern.wildcard :: restAlts, body) :: post)
        = List.foldlM organizeStep init (pre ++ post) := by
  intro pre
  induction pre with
  | nil => intro init; rfl
  | cons c pre ih =>
    intro init
    rw [List.cons_append, List.cons_append, List.foldlM_cons, List.foldlM_cons]
    cases h : organizeStep init c with
    | error e => rfl
    | ok m2 => exact ih m2

theorem organize_wildcard_skip (restAlts : List HPattern) (body : HExpr)
    (pre post : List MatchCase) :
    organize_tuple_patterns (pre ++ (HPattern.wildcard :: restAlts, body) :: post)
      = organize_tuple_patterns (pre ++ post) :=
  organize_fold_wildcard_skip restAlts body post pre []

/-- C5: the decomposition examines only the first alternative pattern of each
arm (the remaining OR-alternatives never influence the grouping), and a case
whose arm's first pattern is a wildcard contributes no entry to the grouping
map and hence no case to the nested match generated for a tuple scrutinee. -/
theorem organize_first_pattern_only_wildcard_skipped
    (m : List (HPattern × List MatchCase)) (p : HPattern)
    (restAlts : List HPattern) (body : HExpr) :
    (organizeStep m (p :: restAlts, body) = organizeStep m ([p], body))
    ∧ (organizeStep m (HPattern.wildcard :: restAlts, body) = .ok m)
    ∧ (∀ pre post : List MatchCase,
        organize_tuple_patterns (pre ++ (HPattern.wildcard :: restAlts, body) :: post)
          = organize_tuple_patterns (pre ++ post))
    ∧ (∀ (fuel : Nat) (elems : List HExpr) (pre post : List MatchCase),
        simplifyFuel fuel (.tupleE elems) (pre ++ (HPattern.wildcard :: restAlts, body) :: post)
          = simplifyFuel fuel (.tupleE elems) (pre ++ post)) := by
  refine ⟨rfl, rfl, fun pre post => organize_wildcard_skip restAlts body pre post,
    fun fuel elems pre post => ?_⟩
  cases fuel with
  | zero => rfl
  | succ f =>
    cases elems with
    | nil => rfl
    | cons head tail =>
      cases tail with
      | nil => rfl
      | cons t1 trest =>
        simp only [simplifyFuel]
        rw [organize_wildcard_skip restAlts body pre post]

/-! ### C6: termination of the decomposition -/

theorem HExpr_sizeOf_pos (e : HExpr) : 0 < sizeOf e := by
  cases e <;> simp_arith

theorem tupleMatchRemaining_size (head t1 : HExpr) (trest : List HExpr) :
    sizeOf (tupleMatchRemaining (t1 :: trest))
      < sizeOf (HExpr.tupleE (head :: t1 :: trest)) := by
  cases trest with
  | nil => simp [tupleMatchRemaining]; omega
  | cons t2 t3 => simp [tupleMatchRemaining]

theorem organizeStep_ne_noFuel (m : List (HPattern × List MatchCase)) (c : MatchCase) :
    organizeStep m c ≠ .error .noFuel := by
  rcases c with ⟨pats, body⟩
  cases pats with
  | nil => simp [organizeStep]
  | cons p rest =>
    cases p with
    | wildcard => simp [organizeStep]
    | litP n => simp [organizeStep]
    | tupleRanged => simp [organizeStep]
    | tupleMultiple ps =>
      cases ps with
      | nil => simp [organizeStep]
      | cons a b => simp [organizeStep]

theorem organize_fold_ne_noFuel (cases : List MatchCase) :
    ∀ init, List.foldlM organizeStep init cases ≠ .error .noFuel := by
  induction cases with
  | nil => intro init h; cases h
  | cons c rest ih =>
    intro init
    rw [List.foldlM_cons]
    cases h : organizeStep init c with
    | error e =>
      have hne := organizeStep_ne_noFuel init c
      rw [h] at hne
      intro hc
      exact hne hc
    | ok m2 => exact ih m2

theorem organize_ne_noFuel (cases : List MatchCase) :
    organize_tuple_patterns cases ≠ .error .noFuel :=
  organize_fold_ne_noFuel cases []

theorem simplifyGroups_ne_noFuel (s : List MatchCase → Except LowerErr HExpr)
    (hs : ∀ kc : List MatchCase, s kc ≠ .error .noFuel) :
    ∀ entries : List (HPattern × List MatchCase),
      simplifyGroupsWith s entries ≠ .error .noFuel := by
  intro entries
  induction entries with
  | nil => simp [simplifyGroupsWith]
  | cons ent rest ih =>
    rcases ent with ⟨key, kcases⟩
    simp only [simplifyGroupsWith]
    cases h1 : s kcases with
    | error e =>
      have hne := hs kcases
      rw [h1] at hne
      simpa using hne
    | ok inner =>
      cases h2 : simplifyGroupsWith s rest with
      | error e =>
        rw [h2] at ih
        exact ih
      | ok cs => simp

/-- C6 (amended): the decomposition terminates on every input: any fuel at
least the size of the scrutinee is never exhausted, because each recursive
invocation operates on a strictly smaller scrutinee — the head is cut off
and the tail re-wrapped (arity one less) when more than one element remains,
while a single remaining element becomes the scrutinee itself (possibly a
tuple of any smaller size) — until the non-tuple base case returns without
recursing. -/
theorem simplify_tuple_match_terminates (fuel : Nat) (scrut : HExpr)
    (cases : List MatchCase) (h : sizeOf scrut ≤ fuel) :
    simplifyFuel fuel scrut cases ≠ .error .noFuel := by
  induction fuel generalizing scrut cases with
  | zero =>
    have := HExpr_sizeOf_pos scrut
    omega
  | succ f ih =>
    cases scrut with
    | lit n => simp [simplifyFuel]
    | other t => simp [simplifyFuel]
    | matchE s cs => simp [simplifyFuel]
    | tupleE elems =>
      cases elems with
      | nil => simp [simplifyFuel]
      | cons head tail =>
        cases tail with
        | nil => simp [simplifyFuel]
        | cons t1 trest =>
          have hrem : sizeOf (tupleMatchRemaining (t1 :: trest)) ≤ f := by
            have hlt := tupleMatchRemaining_size head t1 trest
            omega
          simp only [simplifyFuel]
          intro hcontr
          split at hcontr
          · rename_i e horg
            have he : e = LowerErr.noFuel := by injection hcontr
            exact organize_ne_noFuel cases (by rw [horg, he])
          · rename_i map horg
            split at hcontr
            · rename_i e hg
              have he : e = LowerErr.noFuel := by injection hcontr
              exact simplifyGroups_ne_noFuel
                (fun kc => simplifyFuel f (tupleMatchRemaining (t1 :: trest)) kc)
                (fun kc => ih (tupleMatchRemaining (t1 :: trest)) kc hrem) map
                (by rw [hg, he])
            · exact Except.noConfusion hcontr

/-- C6 witness: fuel 100 suffices for the nested-tuple example input. -/
theorem simplify_tuple_match_terminates_witness :
    simplifyFuel 100 egNestedScrut egNestedCases ≠ Except.error LowerErr.noFuel :=
  simplify_tuple_match_terminates 100 egNestedScrut egNestedCases (by decide)

/-- C6 counterexample: for the 2-tuple scrutinee `(0, (1,2,3))`, the
recursive invocation operates on the remaining scrutinee `(1,2,3)` of tuple
arity 3 — not `2 - 1 = 1` as the claim states — and the decomposition still
terminates, as witnessed by the fully simplified nested output descending
through arities 3 and 2. -/
theorem simplify_arity_not_one_less_counterexample :
    tupleMatchRemaining [HExpr.tupleE [.lit 1, .lit 2, .lit 3]]
        = HExpr.tupleE [.lit 1, .lit 2, .lit 3]
    ∧ tupleArity egNestedScrut = 2
    ∧ tupleArity (HExpr.tupleE [.lit 1, .lit 2, .lit 3]) = 3
    ∧ (3 : Nat) ≠ 2 - 1
    ∧ simplifyFuel 100 egNestedScrut egNestedCases
        = .ok (.matchE (.lit 0)
            [([.litP 0], .matchE (.lit 1)
              [([.litP 1], .matchE (.lit 2)
                [([.litP 2], .matchE (.lit 3)
                  [([.litP 3], .other 7)])])])]) := by
  exact ⟨rfl, rfl, rfl, by decide, rfl⟩

end GccRs
